import Mathlib

/-!
Verification of the link-discovery and concurrent content-extraction pipeline
of `backend/app/services/pdf_link_scraper.py`.

The Python source is shallowly embedded: strings are modelled as `String` or
`List Char`, the regular-expression substitutions of `_clean_content` are
modelled by a small backtracking matcher over an explicit pattern AST
(mirroring Python `re` semantics: leftmost match, ordered alternation, greedy
quantifiers, non-overlapping substitution), and the asynchronous parts
(`asyncio.gather`, `asyncio.Semaphore`) are modelled by an explicit
completion-order parameter and a step relation respectively.
-/

namespace PdfLinkScraper

/-- Characters matched by Python's `\s` (and by `str.strip` / `str.split`)
for `str` patterns: ASCII whitespace plus the Unicode whitespace code points
recognised by CPython. -/
def pySpace (c : Char) : Bool :=
  c = ' ' || c = '\t' || c = '\n' || c = '\r' ||
  c = Char.ofNat 0x0b || c = Char.ofNat 0x0c ||
  c = Char.ofNat 0x1c || c = Char.ofNat 0x1d || c = Char.ofNat 0x1e ||
  c = Char.ofNat 0x1f || c = Char.ofNat 0x85 || c = Char.ofNat 0xa0 ||
  c = Char.ofNat 0x1680 ||
  (0x2000 ≤ c.toNat && c.toNat ≤ 0x200a) ||
  c = Char.ofNat 0x2028 || c = Char.ofNat 0x2029 || c = Char.ofNat 0x202f ||
  c = Char.ofNat 0x205f || c = Char.ofNat 0x3000

/-- Python `str.strip()` on a character list: drop leading and trailing
whitespace. -/
def pyStrip (l : List Char) : List Char :=
  ((l.dropWhile pySpace).reverse.dropWhile pySpace).reverse

/-- Python `str.strip()` on a `String`. -/
def pyStripS (s : String) : String :=
  ⟨pyStrip s.data⟩

/-- Lower-case a string character-wise (Python `str.lower()` restricted to
ASCII case mapping, which is all the source relies on for domains, paths and
schemes). -/
def lowerS (s : String) : String :=
  ⟨s.data.map Char.toLower⟩

/-- Boolean prefix test on character lists. -/
def prefB : List Char → List Char → Bool
  | [], _ => true
  | _ :: _, [] => false
  | a :: as, b :: bs => a = b && prefB as bs

/-- Boolean substring test: Python's `needle in hay`. -/
def infB (needle : List Char) : List Char → Bool
  | [] => prefB needle []
  | c :: rest => prefB needle (c :: rest) || infB needle rest

/-- Case-insensitive prefix test: the pattern is stored lower-case and each
subject character is lowered before comparison (Python `re.IGNORECASE`,
ASCII case mapping). -/
def ciPrefB : List Char → List Char → Bool
  | [], _ => true
  | _ :: _, [] => false
  | a :: as, b :: bs => a = b.toLower && ciPrefB as bs

/-! ### A small regex AST

Exactly the constructs used by the patterns of `_clean_content`:
case-sensitive and case-insensitive literals, `\s+`, `\S+`, greedy `(...)?`,
ordered alternation and sequencing. -/

inductive Rx where
  | lit (ci : Bool) (s : List Char)
  | wsPlus
  | nonWsPlus
  | opt (r : Rx)
  | alt2 (a b : Rx)
  | seq2 (a b : Rx)
deriving DecidableEq

/-- List of suffixes `drop (n) l, drop (n-1) l, ..., drop 1 l`: the remainders
a greedy `+` over a class leaves behind, longest consumption first. -/
def greedyRemainders (l : List Char) : Nat → List (List Char)
  | 0 => []
  | n + 1 => l.drop (n + 1) :: greedyRemainders l n

/-- All ways a pattern can match a prefix of the input, returned as the list
of corresponding remainders in Python backtracking preference order (greedy
quantifiers longest first, alternation left first). -/
def matchR : Rx → List Char → List (List Char)
  | .lit ci s, input =>
    if (if ci then ciPrefB s input else prefB s input) then [input.drop s.length] else []
  | .wsPlus, input =>
    greedyRemainders input (input.takeWhile pySpace).length
  | .nonWsPlus, input =>
    greedyRemainders input (input.takeWhile (fun c => !pySpace c)).length
  | .opt r, input => matchR r input ++ [input]
  | .alt2 a b, input => matchR a input ++ matchR b input
  | .seq2 a b, input => (matchR a input).flatMap (matchR b)

/-- The remainder of the match Python's engine produces at this position,
when the pattern matches here. -/
def firstMatch (r : Rx) (l : List Char) : Option (List Char) :=
  (matchR r l).head?

/-- One `re.sub(pattern, '', text)` pass with fuel (fuel `≥ l.length` makes
it total): scan left to right; at a matching position splice the match out
and continue after it, otherwise keep the character. The source's patterns
cannot match the empty string; a non-shrinking match falls back to keeping
the character so the function is total regardless. -/
def rxRemoveF (r : Rx) : Nat → List Char → List Char
  | 0, l => l
  | _ + 1, [] => []
  | fuel + 1, c :: rest =>
    match firstMatch r (c :: rest) with
    | some rem =>
      if rem.length < rest.length + 1 then rxRemoveF r fuel rem
      else c :: rxRemoveF r fuel rest
    | none => c :: rxRemoveF r fuel rest

/-- `re.sub(r, '', l)` for the patterns of `_clean_content`. -/
def rxRemove (r : Rx) (l : List Char) : List Char :=
  rxRemoveF r l.length l

/-- Does the pattern match at some position of the input? -/
def rxHasMatch (r : Rx) : List Char → Bool
  | [] => !(matchR r []).isEmpty
  | c :: rest => !(matchR r (c :: rest)).isEmpty || rxHasMatch r rest

/-- Case-insensitive literal pattern. -/
def cil (s : String) : Rx :=
  .lit true s.data

/-- Sequence of a list of patterns. -/
def rseq (rs : List Rx) : Rx :=
  match rs with
  | [] => .lit false []
  | r :: rest => rest.foldl Rx.seq2 r

/-- The fixed boilerplate pattern list of `_clean_content`, in source order,
all applied with `re.IGNORECASE`. -/
def boilerplate : List Rx :=
  [ rseq [cil "cookie", .opt (cil "s"), .wsPlus,
      .alt2 (cil "policy") (.alt2 (cil "notice") (cil "settings"))],
    rseq [cil "accept", .wsPlus, .opt (rseq [cil "all", .wsPlus]),
      cil "cookie", .opt (cil "s")],
    rseq [cil "privacy", .wsPlus, cil "policy"],
    rseq [cil "terms", .wsPlus, .opt (rseq [cil "of", .wsPlus]),
      .alt2 (cil "service") (cil "use")],
    rseq [cil "subscribe", .wsPlus, cil "to", .wsPlus, cil "newsletter"],
    rseq [cil "sign", .wsPlus, cil "up", .wsPlus, cil "for"],
    rseq [cil "follow", .wsPlus, cil "us", .wsPlus, cil "on"],
    rseq [cil "share", .wsPlus, .opt (rseq [cil "this", .wsPlus]),
      .alt2 (cil "on") (cil "via")],
    rseq [cil "read", .wsPlus, cil "more", .wsPlus, cil "article", .opt (cil "s")],
    rseq [cil "related", .wsPlus,
      .alt2 (rseq [cil "article", .opt (cil "s")]) (rseq [cil "post", .opt (cil "s")])],
    cil "advertisement",
    rseq [cil "sponsored", .wsPlus, cil "content"] ]

/-- The pattern `https?://\S+` of the URL-stripping pass (applied without
`re.IGNORECASE`). -/
def urlRx : Rx :=
  rseq [.lit false "http".data, .opt (.lit false "s".data),
    .lit false "://".data, .nonWsPlus]

/-- `re.sub(r'\s+', ' ', text)`: collapse every whitespace run to a single
space. The boolean records whether the previous character was part of a
whitespace run. -/
def collapseWsGo : List Char → Bool → List Char
  | [], _ => []
  | c :: rest, prevWs =>
    if pySpace c then
      if prevWs then collapseWsGo rest true
      else ' ' :: collapseWsGo rest true
    else c :: collapseWsGo rest false

def collapseWs (l : List Char) : List Char :=
  collapseWsGo l false

/-- Number of maximal non-whitespace runs: `len(text.split())`. -/
def wordCountGo : List Char → Bool → Nat
  | [], _ => 0
  | c :: rest, inWord =>
    if pySpace c then wordCountGo rest false
    else (if inWord then 0 else 1) + wordCountGo rest true

def wordCount (l : List Char) : Nat :=
  wordCountGo l false

/-- `PDFLinkScraper._clean_content` on a character list: collapse whitespace,
remove the boilerplate patterns in order, strip residual absolute URLs,
collapse and strip again, truncate to 50,000 characters. -/
def cleanContent (l : List Char) : List Char :=
  if l = [] then []
  else
    let t1 := collapseWs l
    let t2 := boilerplate.foldl (fun acc r => rxRemove r acc) t1
    let t3 := rxRemove urlRx t2
    let t4 := pyStrip (collapseWs t3)
    if t4.length > 50000 then t4.take 50000 else t4

/-- `PDFLinkScraper._clean_content` on a `String`. -/
def cleanContentS (s : String) : String :=
  ⟨cleanContent s.data⟩

/-! ### `urllib.parse.urlparse`

Embedding of the scheme/netloc/path components of CPython's
`urlparse` (`urlsplit` plus the params split), which is all
`_extract_urls_from_pdf` reads. `none` models the `ValueError` raised on
unbalanced brackets in the netloc, caught by the source's `except` clause. -/

structure UrlParts where
  scheme : String
  netloc : String
  path : String
deriving DecidableEq, Repr

/-- Characters allowed in a scheme after the initial letter. -/
def schemeCharB (c : Char) : Bool :=
  c.isAlpha || c.isDigit || c = '+' || c = '-' || c = '.'

/-- Schemes for which `urlparse` splits `;params` off the path. -/
def usesParams : List String :=
  ["", "ftp", "hdl", "prospero", "http", "imap", "https", "shttp", "rtsp",
   "rtsps", "rtspu", "sip", "sips", "snews", "tel", "telnet", "mms", "sftp"]

/-- CPython `_splitparams`: drop `;params` from the last path segment. -/
def splitParamsPath (l : List Char) : List Char :=
  if ';' ∈ l then
    if '/' ∈ l then
      let seg := (l.reverse.takeWhile (fun c => c ≠ '/')).reverse
      if ';' ∈ seg then
        l.take (l.length - seg.length) ++ seg.takeWhile (fun c => c ≠ ';')
      else l
    else l.takeWhile (fun c => c ≠ ';')
  else l

/-- `urllib.parse.urlparse`, restricted to the `(scheme, netloc, path)`
triple: strip the WHATWG-unsafe bytes tab/CR/LF, split a valid scheme at the
first colon (lower-cased), take the netloc after `//` up to `/?#` (rejecting
unbalanced square brackets as CPython does), drop fragment and query, and
split params off the last path segment for the schemes that use them. -/
def pyUrlparse (s : String) : Option UrlParts :=
  let l := s.data.filter (fun c => c ≠ '\t' && c ≠ '\r' && c ≠ '\n')
  let pre := l.takeWhile (fun c => c ≠ ':')
  let schemeOk :=
    pre.length < l.length &&
    (match pre with
     | [] => false
     | c :: _ => c.isAlpha) &&
    pre.all schemeCharB
  let scheme : List Char := if schemeOk then pre.map Char.toLower else []
  let rest : List Char := if schemeOk then l.drop (pre.length + 1) else l
  let hasNetloc := prefB ['/', '/'] rest
  let netloc :=
    if hasNetloc then
      (rest.drop 2).takeWhile (fun c => c ≠ '/' && c ≠ '?' && c ≠ '#')
    else []
  let rest2 := if hasNetloc then (rest.drop 2).drop netloc.length else rest
  if ('[' ∈ netloc && ']' ∉ netloc) || (']' ∈ netloc && '[' ∉ netloc) then
    none
  else
    let rawPath := rest2.takeWhile (fun c => c ≠ '#' && c ≠ '?')
    let path :=
      if (⟨scheme⟩ : String) ∈ usesParams then splitParamsPath rawPath
      else rawPath
    some ⟨⟨scheme⟩, ⟨netloc⟩, ⟨path⟩⟩

/-! ### `PDFLinkScraper` URL filtering -/

/-- The `SKIP_DOMAINS` set of the source. -/
def skipDomains : List String :=
  ["facebook.com", "twitter.com", "instagram.com", "linkedin.com",
   "youtube.com", "tiktok.com", "pinterest.com", "reddit.com",
   "fonts.googleapis.com", "fonts.gstatic.com",
   "doubleclick.net", "googleadservices.com", "googlesyndication.com"]

/-- The `SKIP_EXTENSIONS` set of the source. -/
def skipExts : List String :=
  [".jpg", ".jpeg", ".png", ".gif", ".svg", ".webp", ".ico",
   ".css", ".js", ".woff", ".woff2", ".ttf", ".eot",
   ".pdf", ".zip", ".rar", ".exe", ".dmg", ".mp3", ".mp4"]

/-- The trailing punctuation characters stripped by `_clean_url`
(`.`, `,`, `;`, `:`, `)`, apostrophe, double quote, closing brace, `>`). -/
def trailingPunct : List Char :=
  ['.', ',', ';', ':', ')', Char.ofNat 39, Char.ofNat 34, Char.ofNat 125, '>']

/-- `PDFLinkScraper._clean_url`: strip whitespace, then repeatedly drop a
trailing punctuation character. -/
def cleanUrl (s : String) : String :=
  let l := pyStrip s.data
  ⟨(l.reverse.dropWhile (fun c => c ∈ trailingPunct)).reverse⟩

/-- Boolean suffix test (Python `str.endswith`). -/
def suffB (suffix l : List Char) : Bool :=
  prefB suffix.reverse l.reverse

/-- Python `"".join(...).lower().rstrip('/')` normalization key of a parsed
URL: lower-cased `netloc + path` with all trailing slashes stripped. -/
def normKeyOfParts (p : UrlParts) : String :=
  ⟨((lowerS (p.netloc ++ p.path)).data.reverse.dropWhile (fun c => c = '/')).reverse⟩

/-- Normalization key of a URL string (empty when parsing fails). -/
def normKey (u : String) : String :=
  match pyUrlparse u with
  | some p => normKeyOfParts p
  | none => ""

/-- The per-URL acceptance test of `_extract_urls_from_pdf` (lines 181-216):
clean the URL, parse it, require an `http`/`https` scheme and a non-empty
netloc, reject blocklisted domains (case-insensitive substring) and
blocklisted path extensions, and reject an already-seen normalization key.
Returns the cleaned URL together with its key when accepted. -/
def keepUrl (seen : List String) (url0 : String) : Option (String × String) :=
  let url := cleanUrl url0
  if url = "" then none
  else
    match pyUrlparse url with
    | none => none
    | some parts =>
      if !(parts.scheme = "http" || parts.scheme = "https") then none
      else if parts.netloc = "" then none
      else if skipDomains.any (fun d => infB d.data (lowerS parts.netloc).data) then none
      else if skipExts.any (fun e => suffB e.data (lowerS parts.path).data) then none
      else
        let key := normKeyOfParts parts
        if key ∈ seen then none
        else some (url, key)

/-- The filtering loop of `_extract_urls_from_pdf`, accumulating the set of
seen normalization keys. -/
def filterGo (seen : List String) : List String → List String
  | [] => []
  | u :: rest =>
    match keepUrl seen u with
    | none => filterGo seen rest
    | some (url, key) => url :: filterGo (key :: seen) rest

/-- The URL validation/deduplication stage of `_extract_urls_from_pdf`,
applied to the raw URL collection in some iteration order (Python iterates a
`set`; every theorem below holds for every order). -/
def filterValidUrls (raw : List String) : List String :=
  filterGo [] raw

/-! ### `ScrapedPage` and the per-URL unit of work -/

/-- The `ScrapedPage` dataclass, with the same field defaults. Durations are
modelled as `Nat` (the source computes them from a monotonic clock). -/
structure ScrapedPage where
  url : String
  success : Bool
  title : String := ""
  content : String := ""
  word_count : Nat := 0
  error_message : String := ""
  scrape_time_ms : Nat := 0
deriving DecidableEq, Repr

/-- Outcome of `_fetch_webpage` for one URL: the returned body, a raised
`asyncio.TimeoutError`, or any other raised exception with its text. -/
inductive FetchRes where
  | ok (html : String)
  | timeout
  | exn (msg : String)
deriving DecidableEq, Repr

/-- `PDFLinkScraper._scrape_single_url`. Network and parsing effects enter
as parameters: `fetch` is the outcome of `_fetch_webpage url`, `extract`
is `_extract_article_content url` as a function of the fetched HTML (that
helper catches its own exceptions and always returns a pair), and
`elapsedMs` is the measured wall-clock duration. -/
def scrapeSingleUrl (timeoutS : Nat) (url : String) (fetch : FetchRes)
    (extract : String → String × String) (elapsedMs : Nat) : ScrapedPage :=
  match fetch with
  | .timeout =>
    { url := url, success := false,
      error_message := "Timeout after " ++ toString timeoutS ++ "s" }
  | .exn msg => { url := url, success := false, error_message := msg }
  | .ok html =>
    if html = "" then
      { url := url, success := false,
        error_message := "Empty response from server" }
    else
      let tc := extract html
      if tc.2 = "" || tc.2.length < 100 then
        { url := url, success := false,
          error_message := "Could not extract sufficient content from page" }
      else
        let cleaned := cleanContentS tc.2
        { url := url, success := true, title := tc.1, content := cleaned,
          word_count := wordCount cleaned.data, error_message := "",
          scrape_time_ms := elapsedMs }

/-! ### `asyncio.gather` and `_scrape_all_urls`

`asyncio.gather(*tasks, return_exceptions=True)` stores each task's outcome
at the task's index the moment the task completes, and returns the slots in
task order once all are done. The model makes the completion order an
explicit parameter: `gatherFill` fills the result slots in completion order,
and the theorems below quantify over every completion order. -/

/-- Fill result slots in completion order: slot `i` receives outcome `i`
when task `i` completes. -/
def gatherFill (outcomes : List α) (dflt : α) (order : List Nat) : List α :=
  order.foldl (fun acc i => acc.set i (outcomes.getD i dflt))
    (outcomes.map (fun _ => dflt))

/-- A gather slot: either the task's returned `ScrapedPage` or the exception
it raised (`return_exceptions=True` hands exceptions back as values). -/
abbrev GatherRes := Except String ScrapedPage

/-- `PDFLinkScraper._scrape_all_urls` given the per-task gather outcomes and
the completion order: collect the gather results, then zip them with the
URL list, converting an exception into a failed `ScrapedPage` carrying the
exception's text. -/
def scrapeAllUrls (urls : List String) (outcomes : List GatherRes)
    (order : List Nat) : List ScrapedPage :=
  let results := gatherFill outcomes (Except.error "") order
  (urls.zip results).map (fun p =>
    match p.2 with
    | .error e => { url := p.1, success := false, error_message := e }
    | .ok page => page)

/-! ### PDF URL discovery and the pipeline entry point -/

/-- `annot.get('uri','')` cleanup of `_extract_urls_from_pdf`:
`uri.strip().replace('\n','').replace('\r','').replace(' ','')` (replacing a
single character by the empty string deletes every occurrence). -/
def cleanAnnotUri (l : List Char) : List Char :=
  (((pyStrip l).filter (fun c => c ≠ '\n')).filter (fun c => c ≠ '\r')).filter
    (fun c => c ≠ ' ')

/-- String form of `cleanAnnotUri`. -/
def cleanAnnotUriS (s : String) : String :=
  ⟨cleanAnnotUri s.data⟩

/-- What the primary backend (pdfplumber) yields for one PDF page: the `uri`
values of its annotations, and the match lists the two text regexes produce
on the page's rejoined text layer (the regex internals are irrelevant to the
claims; their outputs are taken as page data). -/
structure PdfPageData where
  annotUris : List String
  httpMatches : List String
  wwwMatches : List String

/-- The raw URL collection of `_extract_urls_from_pdf` under the primary
backend: cleaned non-empty annotation URIs, `URL_PATTERN` matches, and
`WWW_PATTERN` matches prefixed with `https://` when not already schemed. -/
def collectFromPrimary (pages : List PdfPageData) : List String :=
  pages.flatMap (fun pg =>
    pg.annotUris.filterMap (fun u => if u = "" then none else some (cleanAnnotUriS u))
    ++ pg.httpMatches
    ++ pg.wwwMatches.map (fun w =>
      if prefB "http".data w.data then w else "https://" ++ w))

/-- `PDFLinkScraper._extract_urls_from_pdf`: the primary backend's per-page
collection, or on its failure the PyPDF2 fallback's link-annotation URIs
(stripped, empty ones dropped), or the empty collection when both backends
fail; followed by the validation/deduplication stage. Both backend failures
are caught, so the function is total. -/
def extractUrlsFromPdf (primary : Except String (List PdfPageData))
    (fallbackUris : Except String (List String)) : List String :=
  let raw : List String :=
    match primary with
    | .ok pages => collectFromPrimary pages
    | .error _ =>
      match fallbackUris with
      | .ok uris => uris.filterMap (fun u => if u = "" then none else some (pyStripS u))
      | .error _ => []
  filterValidUrls raw

/-- `PDFLinkScraper.extract_and_scrape`: discover and filter URLs; when none
survive return `([], [])` without scraping; otherwise scrape every URL. The
`oracle` gives the gather outcomes for the candidate list and `order` the
completion order. -/
def extractAndScrape (primary : Except String (List PdfPageData))
    (fallbackUris : Except String (List String))
    (oracle : List String → List GatherRes) (order : List Nat) :
    List String × List ScrapedPage :=
  let urls := extractUrlsFromPdf primary fallbackUris
  if urls.isEmpty then ([], [])
  else (urls, scrapeAllUrls urls (oracle urls) order)

/-! ### The DOM tag-removal pass of `_extract_article_content`

A minimal DOM: an element node carries its tag and children, a text node its
text. `Dom`/`DomForest` are mutually inductive so that all functions are
structurally recursive. `soup.find_all(tag)` followed by `decompose()` for
each tag of the source's list removes exactly the elements whose tag is in
the list, together with their entire subtrees; `stripForest` is that net
effect in one top-down pass. -/

mutual
inductive Dom where
  | text (s : String)
  | el (tag : String) (children : DomForest)

inductive DomForest where
  | nil
  | cons (d : Dom) (ds : DomForest)
end

/-- The tag list of the removal loop in `_extract_article_content`
(lines 376-377 of the source). -/
def removedTags : List String :=
  ["script", "style", "noscript", "iframe", "nav",
   "header", "footer", "aside", "form", "button"]

mutual
/-- Remove every element whose tag is in `bad`, with its subtree. -/
def stripDom (bad : List String) : Dom → Option Dom
  | .text s => some (.text s)
  | .el t cs => if t ∈ bad then none else some (.el t (stripForest bad cs))

def stripForest (bad : List String) : DomForest → DomForest
  | .nil => .nil
  | .cons d ds =>
    match stripDom bad d with
    | none => stripForest bad ds
    | some d' => .cons d' (stripForest bad ds)
end

mutual
/-- Does the tree contain an element with the given tag? -/
def domHasTag (t : String) : Dom → Bool
  | .text _ => false
  | .el tag cs => tag = t || forestHasTag t cs

def forestHasTag (t : String) : DomForest → Bool
  | .nil => false
  | .cons d ds => domHasTag t d || forestHasTag t ds
end

/-! ### The concurrency gate of `_scrape_all_urls`

`_scrape_all_urls` creates one `asyncio.Semaphore(max_concurrent)` per run
and every task runs `async with semaphore: await _scrape_single_url(url)`.
The model is a step relation on the gate's permit count together with each
task's phase: a task enters its fetch only by acquiring a permit when one is
free, and returns the permit when its unit finishes. -/

inductive TaskPhase where
  | waiting
  | fetching
  | done
deriving DecidableEq, Repr

structure GateState where
  avail : Nat
  tasks : List TaskPhase
deriving DecidableEq, Repr

/-- Number of tasks currently inside the gate (fetch in flight). -/
def inFlight (s : GateState) : Nat :=
  s.tasks.countP (fun t => t = TaskPhase.fetching)

/-- One scheduler step: a waiting task acquires a free permit and starts its
fetch, or a fetching task finishes and releases its permit. -/
inductive GateStep : GateState → GateState → Prop
  | start (s : GateState) (i : Nat) (hi : i < s.tasks.length)
      (hw : s.tasks.get ⟨i, hi⟩ = TaskPhase.waiting)
      (hfree : 0 < s.avail) :
      GateStep s ⟨s.avail - 1, s.tasks.set i TaskPhase.fetching⟩
  | finish (s : GateState) (i : Nat) (hi : i < s.tasks.length)
      (hf : s.tasks.get ⟨i, hi⟩ = TaskPhase.fetching) :
      GateStep s ⟨s.avail + 1, s.tasks.set i TaskPhase.done⟩

/-- States reachable in a run with gate capacity `cap` and `n` URL tasks. -/
inductive GateReach (cap n : Nat) : GateState → Prop
  | init : GateReach cap n ⟨cap, List.replicate n TaskPhase.waiting⟩
  | step {s s' : GateState} : GateReach cap n s → GateStep s s' →
      GateReach cap n s'

/-! ### Helper lemmas -/

/-- The default `ScrapedPage` used for positional lookups in statements. -/
def dfltPage : ScrapedPage :=
  { url := "", success := false }

theorem scrapeSingleUrl_url (timeoutS : Nat) (url : String) (fetch : FetchRes)
    (extract : String → String × String) (elapsedMs : Nat) :
    (scrapeSingleUrl timeoutS url fetch extract elapsedMs).url = url := by
  cases fetch with
  | timeout => rfl
  | exn m => rfl
  | ok html =>
    simp only [scrapeSingleUrl]
    split
    · rfl
    · split
      · rfl
      · rfl

theorem scrapeSingleUrl_inv (timeoutS : Nat) (url : String) (fetch : FetchRes)
    (extract : String → String × String) (elapsedMs : Nat) :
    let p := scrapeSingleUrl timeoutS url fetch extract elapsedMs
    (p.success = true → p.word_count = wordCount p.content.data) ∧
    (p.success = false → p.content = "" ∧ p.word_count = 0 ∧
      p.scrape_time_ms = 0) := by
  cases fetch with
  | timeout => exact ⟨fun h => by simp [scrapeSingleUrl] at h, fun _ => ⟨rfl, rfl, rfl⟩⟩
  | exn m => exact ⟨fun h => by simp [scrapeSingleUrl] at h, fun _ => ⟨rfl, rfl, rfl⟩⟩
  | ok html =>
    simp only [scrapeSingleUrl]
    split
    · exact ⟨fun h => by simp at h, fun _ => ⟨rfl, rfl, rfl⟩⟩
    · split
      · exact ⟨fun h => by simp at h, fun _ => ⟨rfl, rfl, rfl⟩⟩
      · exact ⟨fun _ => rfl, fun h => by simp at h⟩

theorem foldlSet_length (outcomes : List α) (dflt : α) (order : List Nat)
    (init : List α) :
    (order.foldl (fun acc i => acc.set i (outcomes.getD i dflt)) init).length
      = init.length := by
  induction order generalizing init with
  | nil => rfl
  | cons i rest ih => simpa [List.length_set] using ih (init.set i (outcomes.getD i dflt))

theorem foldlSet_getD_of_not_mem (outcomes : List α) (dflt : α)
    (order : List Nat) (init : List α) (j : Nat) (hj : j ∉ order) :
    (order.foldl (fun acc i => acc.set i (outcomes.getD i dflt)) init).getD j dflt
      = init.getD j dflt := by
  induction order generalizing init with
  | nil => rfl
  | cons i rest ih =>
    have hji : j ≠ i := fun h => hj (h ▸ List.mem_cons_self i rest)
    have hjr : j ∉ rest := fun h => hj (List.mem_cons_of_mem i h)
    rw [List.foldl_cons, ih _ hjr]
    simp [List.getD_eq_getElem?_getD, List.getElem?_set_ne (Ne.symm hji)]

theorem foldlSet_getD_of_mem (outcomes : List α) (dflt : α)
    (order : List Nat) (init : List α) (j : Nat)
    (hlen : init.length = outcomes.length)
    (hj : j ∈ order) (hjlt : j < outcomes.length) :
    (order.foldl (fun acc i => acc.set i (outcomes.getD i dflt)) init).getD j dflt
      = outcomes.getD j dflt := by
  induction order generalizing init with
  | nil => cases hj
  | cons i rest ih =>
    rw [List.foldl_cons]
    by_cases hr : j ∈ rest
    · exact ih _ (by simp [List.length_set, hlen]) hr
    · have hji : j = i := by
        rcases List.mem_cons.1 hj with h | h
        · exact h
        · exact absurd h hr
      subst hji
      rw [foldlSet_getD_of_not_mem _ _ _ _ _ hr]
      have hjinit : j < init.length := hlen ▸ hjlt
      simp [List.getD_eq_getElem?_getD, List.getElem?_set_eq_of_lt _ hjinit]

theorem gatherFill_perm (outcomes : List α) (dflt : α) (order : List Nat)
    (hperm : order.Perm (List.range outcomes.length)) :
    gatherFill outcomes dflt order = outcomes := by
  have hlen : (gatherFill outcomes dflt order).length = outcomes.length := by
    simpa [gatherFill] using
      foldlSet_length outcomes dflt order (outcomes.map fun _ => dflt)
  apply List.ext_getElem hlen
  intro i h1 h2
  have hmem : i ∈ order := hperm.mem_iff.2 (List.mem_range.2 h2)
  have h : (gatherFill outcomes dflt order).getD i dflt = outcomes.getD i dflt := by
    simpa [gatherFill] using foldlSet_getD_of_mem outcomes dflt order
      (outcomes.map fun _ => dflt) i (by simp) hmem h2
  rw [List.getD_eq_getElem?_getD, List.getD_eq_getElem?_getD,
    List.getElem?_eq_getElem h1, List.getElem?_eq_getElem h2] at h
  simpa using h

/-! ### Claim theorems -/

/-- C5: when both the primary and the fallback PDF parsing backend fail,
`extract_and_scrape` returns an empty `urls` list and an empty `pages` list;
both failures are caught inside `_extract_urls_from_pdf`, so no exception
escapes (the embedding is a total function). -/
theorem both_backends_fail_yield_empty (e1 e2 : String)
    (oracle : List String → List GatherRes) (order : List Nat) :
    extractAndScrape (Except.error e1) (Except.error e2) oracle order
      = ([], []) :=
  rfl

/-- C2: the pipeline's `pages` list has exactly the length of `urls`, and
`pages[i].url = urls[i]` for every index, for every completion order of the
concurrent fetch tasks. The hypothesis `hok` records what the source
guarantees about task `i`'s own result: `_scrape_single_url(url_i)` always
sets `url = url_i` (proved separately as `scrapeSingleUrl_url`). -/
theorem pages_match_urls_positionally (urls : List String)
    (outcomes : List GatherRes) (order : List Nat)
    (hlen : outcomes.length = urls.length)
    (hperm : order.Perm (List.range outcomes.length))
    (hok : ∀ i p, i < urls.length →
      outcomes.getD i (Except.error "") = Except.ok p → p.url = urls.getD i "") :
    (scrapeAllUrls urls outcomes order).length = urls.length ∧
    ∀ i, i < urls.length →
      ((scrapeAllUrls urls outcomes order).getD i dfltPage).url
        = urls.getD i "" := by
  have hres : gatherFill outcomes (Except.error "") order = outcomes :=
    gatherFill_perm _ _ _ hperm
  constructor
  · simp [scrapeAllUrls, hres, hlen]
  · intro i hi
    have hiz : i < (urls.zip outcomes).length := by
      simp [List.length_zip, hlen]
      omega
    have hio : i < outcomes.length := hlen ▸ hi
    have hmap : i < (scrapeAllUrls urls outcomes order).length := by
      simp [scrapeAllUrls, hres, hlen]
      omega
    rw [List.getD_eq_getElem?_getD, List.getElem?_eq_getElem hmap]
    rw [List.getD_eq_getElem?_getD, List.getElem?_eq_getElem hi]
    simp only [scrapeAllUrls, hres, List.getElem_map, List.getElem_zip,
      Option.getD_some]
    cases hout : outcomes[i] with
    | error e => simp [hout]
    | ok p =>
      have := hok i p hi (by
        rw [List.getD_eq_getElem?_getD, List.getElem?_eq_getElem hio, hout]
        rfl)
      rw [List.getD_eq_getElem?_getD, List.getElem?_eq_getElem hi] at this
      simpa [hout] using this

/-- C3: an exception raised inside one URL's unit of work surfaces, via
`gather(..., return_exceptions=True)`, as a `ScrapedPage` with
`success = false` and `error_message` equal to the exception's text; it never
escapes the batch (the embedding is total), and every other position's page
is unchanged whatever outcome (and completion order) replaces the crash. -/
theorem unit_crash_contained (urls : List String)
    (outcomes outcomes' : List GatherRes) (order order' : List Nat)
    (hlen : outcomes.length = urls.length)
    (hlen' : outcomes'.length = urls.length)
    (hperm : order.Perm (List.range outcomes.length))
    (hperm' : order'.Perm (List.range outcomes'.length))
    (j : Nat) (hj : j < urls.length) (e : String)
    (hcrash : outcomes.getD j (Except.error "") = Except.error e)
    (hagree : ∀ i, i < urls.length → i ≠ j →
      outcomes'.getD i (Except.error "") = outcomes.getD i (Except.error "")) :
    (scrapeAllUrls urls outcomes order).getD j dfltPage
      = { url := urls.getD j "", success := false, error_message := e } ∧
    ∀ i, i < urls.length → i ≠ j →
      (scrapeAllUrls urls outcomes' order').getD i dfltPage
        = (scrapeAllUrls urls outcomes order).getD i dfltPage := by
  have hres : gatherFill outcomes (Except.error "") order = outcomes :=
    gatherFill_perm _ _ _ hperm
  have hres' : gatherFill outcomes' (Except.error "") order' = outcomes' :=
    gatherFill_perm _ _ _ hperm'
  have hgetPage : ∀ (oc : List GatherRes), oc.length = urls.length →
      ∀ i, i < urls.length →
      (((urls.zip oc).map (fun p =>
        match p.2 with
        | .error e => ({ url := p.1, success := false, error_message := e } : ScrapedPage)
        | .ok page => page)).getD i dfltPage)
        = (match oc.getD i (Except.error "") with
          | .error e => ({ url := urls.getD i "", success := false, error_message := e } : ScrapedPage)
          | .ok page => page) := by
    intro oc hoc i hi
    have hio : i < oc.length := hoc ▸ hi
    have hiz : i < (urls.zip oc).length := by
      simp [List.length_zip, hoc]
      omega
    have hm : i < ((urls.zip oc).map (fun p =>
        match p.2 with
        | .error e => ({ url := p.1, success := false, error_message := e } : ScrapedPage)
        | .ok page => page)).length := by
      simpa using hiz
    rw [List.getD_eq_getElem?_getD, List.getElem?_eq_getElem hm]
    rw [List.getD_eq_getElem?_getD, List.getElem?_eq_getElem hio]
    rw [List.getD_eq_getElem?_getD, List.getElem?_eq_getElem hi]
    simp [List.getElem_zip]
  constructor
  · have h := hgetPage outcomes hlen j hj
    simp only [scrapeAllUrls, hres]
    rw [h, hcrash]
  · intro i hi hij
    have h := hgetPage outcomes hlen i hi
    have h' := hgetPage outcomes' hlen' i hi
    simp only [scrapeAllUrls, hres, hres']
    rw [h, h', hagree i hi hij]

/-- C10: every page the pipeline produces satisfies: on success,
`word_count` is the number of whitespace-separated tokens of `content`; on
failure, `content` is empty and `word_count` and `scrape_time_ms` are `0`.
The hypothesis records that every task result is the value
`_scrape_single_url` returned for some fetch/extract behaviour. -/
theorem pipeline_page_invariants (urls : List String)
    (outcomes : List GatherRes) (order : List Nat)
    (hperm : order.Perm (List.range outcomes.length))
    (hsrc : ∀ r ∈ outcomes, ∀ p, r = Except.ok p →
      ∃ t u f ex el, p = scrapeSingleUrl t u f ex el) :
    ∀ page ∈ scrapeAllUrls urls outcomes order,
      (page.success = true → page.word_count = wordCount page.content.data) ∧
      (page.success = false → page.content = "" ∧ page.word_count = 0 ∧
        page.scrape_time_ms = 0) := by
  intro page hpage
  have hres : gatherFill outcomes (Except.error "") order = outcomes :=
    gatherFill_perm _ _ _ hperm
  simp only [scrapeAllUrls, hres] at hpage
  obtain ⟨pr, hpr, hmap⟩ := List.mem_map.1 hpage
  have h2 := (List.of_mem_zip hpr).2
  cases hsnd : pr.2 with
  | error e =>
    rw [hsnd] at hmap
    exact hmap ▸ ⟨fun h => by simp at h, fun _ => ⟨rfl, rfl, rfl⟩⟩
  | ok p =>
    rw [hsnd] at hmap h2
    obtain ⟨t, u, f, ex, el, hp⟩ := hsrc _ h2 p rfl
    subst hp
    exact hmap ▸ scrapeSingleUrl_inv t u f ex el

/-- C1 (amended): `success = true` holds iff the fetch returned non-empty
HTML and the content extracted *before* the cleaning pass has length ≥ 100;
on success `error_message` is empty, but the stored (cleaned) content may be
shorter than 100 characters, because the threshold of
`_scrape_single_url` is applied before `_clean_content` runs. -/
theorem success_iff_precleaning_threshold (timeoutS : Nat) (url : String)
    (fetch : FetchRes) (extract : String → String × String) (elapsedMs : Nat) :
    ((scrapeSingleUrl timeoutS url fetch extract elapsedMs).success = true ↔
      ∃ html, fetch = FetchRes.ok html ∧ html ≠ "" ∧
        100 ≤ ((extract html).2).length) ∧
    ((scrapeSingleUrl timeoutS url fetch extract elapsedMs).success = true →
      (scrapeSingleUrl timeoutS url fetch extract elapsedMs).error_message
        = "") := by
  cases fetch with
  | timeout =>
    refine ⟨⟨fun h => by simp [scrapeSingleUrl] at h, ?_⟩,
      fun h => by simp [scrapeSingleUrl] at h⟩
    rintro ⟨html, h, -⟩
    cases h
  | exn m =>
    refine ⟨⟨fun h => by simp [scrapeSingleUrl] at h, ?_⟩,
      fun h => by simp [scrapeSingleUrl] at h⟩
    rintro ⟨html, h, -⟩
    cases h
  | ok html =>
    simp only [scrapeSingleUrl]
    split
    · rename_i hempty
      subst hempty
      constructor
      · constructor
        · intro h
          simp at h
        · rintro ⟨html', h, hne, -⟩
          cases h
          exact absurd rfl hne
      · intro h
        simp at h
    · rename_i hne
      split
      · rename_i hshort
        constructor
        · constructor
          · intro h
            simp at h
          · rintro ⟨html', h, -, hlen⟩
            cases h
            rcases Bool.or_eq_true_iff.1 hshort with h | h
            · have : (extract html).2.length = 0 := by
                simp [of_decide_eq_true h]
              omega
            · have := of_decide_eq_true h
              omega
        · intro h
          simp at h
      · rename_i hlong
        constructor
        · constructor
          · intro _
            refine ⟨html, rfl, hne, ?_⟩
            rcases Nat.lt_or_ge ((extract html).2.length) 100 with h | h
            · exact absurd (Bool.or_eq_true_iff.2 (Or.inr (decide_eq_true h))) hlong
            · exact h
          · intro _
            rfl
        · intro _
          rfl

/-- Concrete unit for the C1 counterexample: the extractor returns 106
characters (80 `a`s followed by `advertisementadvertisement`), so the
pre-cleaning threshold passes, and the cleaning pass then strips both
`advertisement` occurrences, leaving an 80-character success page. -/
def shortCleanPage : ScrapedPage :=
  scrapeSingleUrl 15 "http://example.com/a"
    (FetchRes.ok "<html><body>x</body></html>")
    (fun _ => ("T", ⟨List.replicate 80 'a' ++ "advertisementadvertisement".data⟩))
    7

/-- The pipeline result containing that unit. -/
def shortCleanPages : List ScrapedPage :=
  scrapeAllUrls ["http://example.com/a"] [Except.ok shortCleanPage] [0]

set_option maxRecDepth 100000 in
/-- C1 (counterexample): a page of the pipeline's result with
`success = true`, empty `error_message`, and cleaned content of length 80,
refuting the claimed equivalence `success = true ↔ content length ≥ 100 ∧
error_message = ""`. -/
theorem c1_success_despite_short_cleaned_content :
    ((shortCleanPages.getD 0 dfltPage).success = true ∧
     (shortCleanPages.getD 0 dfltPage).error_message = "" ∧
     (shortCleanPages.getD 0 dfltPage).content.length = 80) ∧
    ¬((shortCleanPages.getD 0 dfltPage).success = true ↔
      100 ≤ (shortCleanPages.getD 0 dfltPage).content.length ∧
      (shortCleanPages.getD 0 dfltPage).error_message = "") := by
  decide

/-- Witness instance for C1 (amended) at a concrete successful unit. -/
theorem success_iff_precleaning_threshold_witness :
    ((scrapeSingleUrl 15 "http://a.com" (FetchRes.ok "<p>x</p>")
        (fun _ => ("T", ⟨List.replicate 120 'b'⟩)) 3).success = true ↔
      ∃ html, FetchRes.ok "<p>x</p>" = FetchRes.ok html ∧ html ≠ "" ∧
        100 ≤ (((fun _ => (("T" : String),
          (⟨List.replicate 120 'b'⟩ : String))) html).2).length) ∧
    ((scrapeSingleUrl 15 "http://a.com" (FetchRes.ok "<p>x</p>")
        (fun _ => ("T", ⟨List.replicate 120 'b'⟩)) 3).success = true →
      (scrapeSingleUrl 15 "http://a.com" (FetchRes.ok "<p>x</p>")
        (fun _ => ("T", ⟨List.replicate 120 'b'⟩)) 3).error_message = "") :=
  success_iff_precleaning_threshold 15 "http://a.com"
    (FetchRes.ok "<p>x</p>") (fun _ => ("T", ⟨List.replicate 120 'b'⟩)) 3

/-! ### Concrete instances for the witnesses -/

def wUrls2 : List String :=
  ["http://a.com", "http://b.com"]

def wTimeoutPage : ScrapedPage :=
  scrapeSingleUrl 15 "http://a.com" FetchRes.timeout (fun _ => ("", "")) 0

def wOutcomes2 : List GatherRes :=
  [Except.ok wTimeoutPage, Except.error "boom"]

/-- Witness for C2 at a concrete two-URL batch with reversed completion
order. -/
theorem pages_match_urls_positionally_witness :
    (scrapeAllUrls wUrls2 wOutcomes2 [1, 0]).length = 2 ∧
    ∀ i, i < 2 →
      ((scrapeAllUrls wUrls2 wOutcomes2 [1, 0]).getD i dfltPage).url
        = wUrls2.getD i "" := by
  have h := pages_match_urls_positionally wUrls2 wOutcomes2 [1, 0]
    (by decide) (by decide)
    (by
      intro i p hi hp
      match i with
      | 0 =>
        have hp' : Except.ok wTimeoutPage = Except.ok p := hp
        cases hp'
        rfl
      | 1 => exact Except.noConfusion hp
      | n + 2 => simp [wUrls2] at hi)
  exact h

def wCrashOutcomes : List GatherRes :=
  [Except.error "crash", Except.ok wTimeoutPage]

def wCrashOutcomesB : List GatherRes :=
  [Except.ok wTimeoutPage, Except.ok wTimeoutPage]

/-- Witness for C3 at a concrete batch whose first unit crashes. -/
theorem unit_crash_contained_witness :
    (scrapeAllUrls wUrls2 wCrashOutcomes [0, 1]).getD 0 dfltPage
      = { url := wUrls2.getD 0 "", success := false, error_message := "crash" } ∧
    ∀ i, i < 2 → i ≠ 0 →
      (scrapeAllUrls wUrls2 wCrashOutcomesB [1, 0]).getD i dfltPage
        = (scrapeAllUrls wUrls2 wCrashOutcomes [0, 1]).getD i dfltPage := by
  have h := unit_crash_contained wUrls2 wCrashOutcomes wCrashOutcomesB
    [0, 1] [1, 0] (by decide) (by decide) (by decide) (by decide)
    0 (by decide) "crash" rfl
    (by
      intro i hi hij
      match i with
      | 0 => exact absurd rfl hij
      | 1 => rfl
      | n + 2 => simp [wUrls2] at hi)
  exact h

/-- Witness for C10: the invariant holds of the concrete unit result inside
a batch that also holds a crash. -/
theorem pipeline_page_invariants_witness :
    (wTimeoutPage.success = true →
      wTimeoutPage.word_count = wordCount wTimeoutPage.content.data) ∧
    (wTimeoutPage.success = false → wTimeoutPage.content = "" ∧
      wTimeoutPage.word_count = 0 ∧ wTimeoutPage.scrape_time_ms = 0) := by
  have h := pipeline_page_invariants wUrls2 wCrashOutcomes [1, 0]
    (by decide)
    (by
      intro r hr p hp
      have : r = Except.error "crash" ∨ r = Except.ok wTimeoutPage := by
        rcases List.mem_cons.1 hr with h | h
        · exact Or.inl h
        · exact Or.inr (List.mem_singleton.1 h)
      rcases this with h | h
      · rw [h] at hp
        exact Except.noConfusion hp
      · rw [h] at hp
        have hp' : wTimeoutPage = p := Except.ok.inj hp
        exact ⟨15, "http://a.com", FetchRes.timeout, fun _ => ("", ""), 0,
          hp' ▸ rfl⟩)
  exact h wTimeoutPage (by decide)

/-! ### Soundness of the URL filter -/

/-- The per-URL validity property every filter output satisfies. -/
def ValidCandidate (u : String) : Prop :=
  ∃ parts, pyUrlparse u = some parts ∧
    (parts.scheme = "http" ∨ parts.scheme = "https") ∧
    parts.netloc ≠ "" ∧
    (∀ d ∈ skipDomains, infB d.data (lowerS parts.netloc).data = false) ∧
    (∀ e ∈ skipExts, suffB e.data (lowerS parts.path).data = false)

theorem keepUrl_some_spec (seen : List String) (u0 u key : String)
    (h : keepUrl seen u0 = some (u, key)) :
    ValidCandidate u ∧ key = normKey u ∧ key ∉ seen := by
  simp only [keepUrl] at h
  split at h
  · exact absurd h (by simp)
  · split at h
    · exact absurd h (by simp)
    · rename_i parts hp
      split at h
      · exact absurd h (by simp)
      · split at h
        · exact absurd h (by simp)
        · split at h
          · exact absurd h (by simp)
          · split at h
            · exact absurd h (by simp)
            · split at h
              · exact absurd h (by simp)
              · rename_i hscheme hnet hdom hext hseen
                have hu : u = cleanUrl u0 := (Prod.mk.inj (Option.some.inj h)).1.symm
                have hkey : key = normKeyOfParts parts :=
                  (Prod.mk.inj (Option.some.inj h)).2.symm
                subst hu
                refine ⟨⟨parts, hp, ?_, ?_, ?_, ?_⟩, ?_, ?_⟩
                · have := Bool.not_eq_true _ ▸ hscheme
                  simp only [Bool.not_eq_true', Bool.not_eq_false] at this
                  exact or_iff_not_imp_left.2
                    (by simpa [Bool.or_eq_true, decide_eq_true_eq] using this)
                · intro hcontra
                  exact hnet (by simp [hcontra])
                · intro d hd
                  have : skipDomains.any
                      (fun d => infB d.data (lowerS parts.netloc).data) = false :=
                    Bool.not_eq_true _ ▸ hdom
                  exact Bool.eq_false_iff.2 (List.any_eq_false.1 this d hd)
                · intro e he
                  have : skipExts.any
                      (fun e => suffB e.data (lowerS parts.path).data) = false :=
                    Bool.not_eq_true _ ▸ hext
                  exact Bool.eq_false_iff.2 (List.any_eq_false.1 this e he)
                · rw [hkey, normKey, hp]
                · exact hkey ▸ hseen

theorem filterGo_mem_spec (raw : List String) :
    ∀ (seen : List String) (u : String), u ∈ filterGo seen raw →
      ValidCandidate u := by
  induction raw with
  | nil => intro seen u hu; cases hu
  | cons u0 rest ih =>
    intro seen u hu
    rw [filterGo] at hu
    cases hk : keepUrl seen u0 with
    | none =>
      rw [hk] at hu
      exact ih seen u hu
    | some pr =>
      rw [hk] at hu
      rcases List.mem_cons.1 hu with h | h
      · exact h ▸ (keepUrl_some_spec seen u0 pr.1 pr.2 (by rw [hk])).1
      · exact ih _ u h

theorem filterGo_keys (raw : List String) :
    ∀ seen : List String,
      (∀ u ∈ filterGo seen raw, normKey u ∉ seen) ∧
      (filterGo seen raw).Pairwise (fun a b => normKey a ≠ normKey b) := by
  induction raw with
  | nil => exact fun seen => ⟨fun u hu => absurd hu (List.not_mem_nil u), .nil⟩
  | cons u0 rest ih =>
    intro seen
    rw [filterGo]
    cases hk : keepUrl seen u0 with
    | none => exact ih seen
    | some pr =>
      obtain ⟨-, hkey, hseen⟩ := keepUrl_some_spec seen u0 pr.1 pr.2 (by rw [hk])
      obtain ⟨ih1, ih2⟩ := ih (pr.2 :: seen)
      constructor
      · intro u hu
        rcases List.mem_cons.1 hu with h | h
        · subst h
          exact hkey ▸ hseen
        · exact fun hc => ih1 u h (List.mem_cons_of_mem _ hc)
      · refine List.Pairwise.cons ?_ ih2
        intro b hb
        have := ih1 b hb
        rw [← hkey]
        intro hc
        exact this (List.mem_cons.2 (Or.inl hc.symm))

set_option maxRecDepth 10000 in
/-- C4: every URL the filter outputs parses with scheme `http` or `https`
and a non-empty netloc, its lower-cased netloc contains no blocklisted
domain substring (in particular never `facebook.com`), its lower-cased path
ends with no blocklisted extension, the normalization keys (lower-cased
`netloc+path`, trailing slashes stripped) of the outputs are pairwise
distinct, and the inputs `http://x.com/a` and `http://x.com/a/` yield
exactly the one candidate `http://x.com/a`. -/
theorem filter_output_valid (raw : List String) :
    (∀ u ∈ filterValidUrls raw, ValidCandidate u) ∧
    "facebook.com" ∈ skipDomains ∧
    (filterValidUrls raw).Pairwise (fun a b => normKey a ≠ normKey b) ∧
    filterValidUrls ["http://x.com/a", "http://x.com/a/"]
      = ["http://x.com/a"] := by
  refine ⟨fun u hu => filterGo_mem_spec raw [] u hu, by decide,
    (filterGo_keys raw []).2, by decide⟩

set_option maxRecDepth 10000 in
/-- Witness for C4: the first survivor of the deduplication example is a
valid candidate. -/
theorem filter_output_valid_witness : ValidCandidate "http://x.com/a" :=
  (filter_output_valid ["http://x.com/a", "http://x.com/a/"]).1
    "http://x.com/a"
    (by rw [(filter_output_valid []).2.2.2]; exact List.mem_singleton.2 rfl)

/-! ### Annotation URI capture -/

theorem stringMk_data (s : String) : (⟨s.data⟩ : String) = s := by
  cases s
  rfl

theorem dropWhile_eq_self_of_head (p : Char → Bool) (l : List Char)
    (h : ∀ c ∈ l.head?, p c = false) : l.dropWhile p = l := by
  cases l with
  | nil => rfl
  | cons a rest =>
    rw [List.dropWhile_cons, h a rfl]
    simp

theorem head_false_of_dropWhile_eq_self (p : Char → Bool) (l : List Char)
    (h : l.dropWhile p = l) : ∀ c ∈ l.head?, p c = false := by
  intro c hc
  cases l with
  | nil => cases hc
  | cons a rest =>
    have hac : a = c := Option.some.inj hc
    subst hac
    cases hp : p a with
    | false => rfl
    | true =>
      rw [List.dropWhile_cons, hp] at h
      simp only [if_true] at h
      have h1 := congrArg List.length h
      have h2 := (List.dropWhile_sublist (l := rest) p).length_le
      simp only [List.length_cons] at h1
      omega

/-- `str.strip()` is a no-op exactly when the first and last characters are
not whitespace. -/
theorem pyStrip_eq_self_iff (l : List Char) :
    pyStrip l = l ↔
      (∀ c ∈ l.head?, pySpace c = false) ∧
      (∀ c ∈ l.getLast?, pySpace c = false) := by
  constructor
  · intro h
    have hlen : (pyStrip l).length = l.length := congrArg List.length h
    have e1 : (pyStrip l).length
        = ((l.dropWhile pySpace).reverse.dropWhile pySpace).length := by
      rw [pyStrip, List.length_reverse]
    have le1 : ((l.dropWhile pySpace).reverse.dropWhile pySpace).length
        ≤ (l.dropWhile pySpace).reverse.length :=
      (List.dropWhile_sublist _).length_le
    have le2 : (l.dropWhile pySpace).length ≤ l.length :=
      (List.dropWhile_sublist _).length_le
    rw [List.length_reverse] at le1
    have hfull : (l.dropWhile pySpace).length = l.length := by omega
    have hdw : l.dropWhile pySpace = l :=
      (List.dropWhile_sublist _).eq_of_length hfull
    refine ⟨head_false_of_dropWhile_eq_self _ _ hdw, ?_⟩
    have h2 : (l.reverse.dropWhile pySpace).reverse = l := by
      rw [pyStrip, hdw] at h
      exact h
    have h3 : l.reverse.dropWhile pySpace = l.reverse := by
      have := congrArg List.reverse h2
      rwa [List.reverse_reverse] at this
    have h4 := head_false_of_dropWhile_eq_self _ _ h3
    intro c hc
    exact h4 c (by rw [List.head?_reverse]; exact hc)
  · rintro ⟨h1, h2⟩
    have hdw : l.dropWhile pySpace = l := dropWhile_eq_self_of_head _ _ h1
    have hdw2 : l.reverse.dropWhile pySpace = l.reverse :=
      dropWhile_eq_self_of_head _ _
        (fun c hc => h2 c (by rw [← List.head?_reverse]; exact hc))
    rw [pyStrip, hdw, hdw2, List.reverse_reverse]

/-- The annotation-URI cleanup of line 138 is the identity exactly when the
URI has no leading or trailing whitespace and contains no newline,
carriage-return or space character (an interior tab, for instance, is kept
and the capture is still verbatim). -/
theorem cleanAnnotUri_eq_self_iff (l : List Char) :
    cleanAnnotUri l = l ↔
      (∀ c ∈ l.head?, pySpace c = false) ∧
      (∀ c ∈ l.getLast?, pySpace c = false) ∧
      (∀ c ∈ l, c ≠ '\n' ∧ c ≠ '\r' ∧ c ≠ ' ') := by
  constructor
  · intro h
    have hlen : (cleanAnnotUri l).length = l.length := congrArg List.length h
    have hle3 : (cleanAnnotUri l).length
        ≤ (((pyStrip l).filter (fun c => c ≠ '\n')).filter
            (fun c => c ≠ '\r')).length := List.length_filter_le _ _
    have hle2 : ((((pyStrip l).filter (fun c => c ≠ '\n')).filter
          (fun c => c ≠ '\r'))).length
        ≤ ((pyStrip l).filter (fun c => c ≠ '\n')).length :=
      List.length_filter_le _ _
    have hle1 : ((pyStrip l).filter (fun c => c ≠ '\n')).length
        ≤ (pyStrip l).length := List.length_filter_le _ _
    have hle0 : (pyStrip l).length ≤ l.length := by
      rw [pyStrip, List.length_reverse]
      calc ((l.dropWhile pySpace).reverse.dropWhile pySpace).length
          ≤ (l.dropWhile pySpace).reverse.length :=
            (List.dropWhile_sublist _).length_le
        _ = (l.dropWhile pySpace).length := List.length_reverse _
        _ ≤ l.length := (List.dropWhile_sublist _).length_le
    have e0 : (pyStrip l).length = l.length := by omega
    have sps : List.Sublist (pyStrip l) l := by
      rw [pyStrip]
      have d2 := (List.dropWhile_sublist (l := (l.dropWhile pySpace).reverse)
        pySpace).reverse
      rw [List.reverse_reverse] at d2
      exact d2.trans (List.dropWhile_sublist _)
    have hps : pyStrip l = l := sps.eq_of_length e0
    rw [hps] at hle1 hle2 hle3
    have e1 : (l.filter (fun c => c ≠ '\n')).length = l.length := by omega
    have hf1 : l.filter (fun c => c ≠ '\n') = l :=
      (List.filter_sublist _).eq_of_length e1
    rw [hf1] at hle2 hle3
    have e2 : (l.filter (fun c => c ≠ '\r')).length = l.length := by omega
    have hf2 : l.filter (fun c => c ≠ '\r') = l :=
      (List.filter_sublist _).eq_of_length e2
    rw [cleanAnnotUri, hps, hf1, hf2] at h
    obtain ⟨hh, hl⟩ := (pyStrip_eq_self_iff l).1 hps
    refine ⟨hh, hl, ?_⟩
    intro c hc
    refine ⟨?_, ?_, ?_⟩
    · simpa using List.filter_eq_self.1 hf1 c hc
    · simpa using List.filter_eq_self.1 hf2 c hc
    · simpa using List.filter_eq_self.1 h c hc
  · rintro ⟨h1, h2, h3⟩
    have hps : pyStrip l = l := (pyStrip_eq_self_iff l).2 ⟨h1, h2⟩
    have hf1 : l.filter (fun c => c ≠ '\n') = l :=
      List.filter_eq_self.2 (fun c hc => by simpa using (h3 c hc).1)
    have hf2 : l.filter (fun c => c ≠ '\r') = l :=
      List.filter_eq_self.2 (fun c hc => by simpa using (h3 c hc).2.1)
    have hf3 : l.filter (fun c => c ≠ ' ') = l :=
      List.filter_eq_self.2 (fun c hc => by simpa using (h3 c hc).2.2)
    rw [cleanAnnotUri, hps, hf1, hf2, hf3]

/-- C8 (counterexample): an annotation URI containing a space is not added
verbatim to the raw URL set: the space is deleted, so the captured string
differs from the annotation's URI. -/
theorem annotation_uri_space_deleted :
    collectFromPrimary [⟨["http://x.com/a b"], [], []⟩]
      = ["http://x.com/ab"] ∧
    ("http://x.com/ab" : String) ≠ "http://x.com/a b" := by
  constructor
  · rfl
  · decide

/-- C8 (amended): each non-empty annotation URI is captured after `strip()`
and deletion of every newline, carriage-return and space character, and the
captured string lands in the raw URL collection; the capture is verbatim if
and only if the URI has no leading or trailing whitespace and contains no
newline, carriage-return or space character (so a URI with an interior tab
is still captured verbatim). -/
theorem annotation_uri_captured (pages : List PdfPageData)
    (pg : PdfPageData) (uri : String)
    (hpg : pg ∈ pages) (huri : uri ∈ pg.annotUris) (hne : uri ≠ "") :
    cleanAnnotUriS uri ∈ collectFromPrimary pages ∧
    (cleanAnnotUriS uri = uri ↔
      (∀ c ∈ uri.data.head?, pySpace c = false) ∧
      (∀ c ∈ uri.data.getLast?, pySpace c = false) ∧
      (∀ c ∈ uri.data, c ≠ '\n' ∧ c ≠ '\r' ∧ c ≠ ' ')) := by
  constructor
  · rw [collectFromPrimary]
    refine List.mem_flatMap.2 ⟨pg, hpg, ?_⟩
    refine List.mem_append.2 (Or.inl (List.mem_append.2 (Or.inl ?_)))
    refine List.mem_filterMap.2 ⟨uri, huri, ?_⟩
    simp [hne]
  · rw [← cleanAnnotUri_eq_self_iff uri.data]
    constructor
    · intro h
      exact congrArg String.data h
    · intro h
      calc cleanAnnotUriS uri = (⟨cleanAnnotUri uri.data⟩ : String) := rfl
        _ = (⟨uri.data⟩ : String) := by rw [h]
        _ = uri := stringMk_data uri

/-- Witness for C8 at a concrete URI with an interior tab: it is captured,
and captured verbatim, the equivalence's conditions holding. -/
theorem annotation_uri_captured_witness :
    cleanAnnotUriS "http://x.com/a\tb" ∈
      collectFromPrimary [⟨["http://x.com/a\tb"], [], []⟩] ∧
    (cleanAnnotUriS "http://x.com/a\tb" = "http://x.com/a\tb" ↔
      (∀ c ∈ ("http://x.com/a\tb" : String).data.head?, pySpace c = false) ∧
      (∀ c ∈ ("http://x.com/a\tb" : String).data.getLast?,
        pySpace c = false) ∧
      (∀ c ∈ ("http://x.com/a\tb" : String).data,
        c ≠ '\n' ∧ c ≠ '\r' ∧ c ≠ ' ')) :=
  annotation_uri_captured [⟨["http://x.com/a\tb"], [], []⟩]
    ⟨["http://x.com/a\tb"], [], []⟩ "http://x.com/a\tb"
    (List.mem_singleton.2 rfl) (List.mem_singleton.2 rfl) (by decide)

/-! ### DOM tag removal -/

mutual
theorem stripDom_clean (bad : List String) (t : String) (ht : t ∈ bad) :
    (d : Dom) → ∀ d', stripDom bad d = some d' → domHasTag t d' = false
  | .text s => by
    intro d' h
    have hd : d' = .text s := (Option.some.inj h).symm
    subst hd
    rfl
  | .el tag cs => by
    intro d' h
    rw [stripDom] at h
    split at h
    · exact Option.noConfusion h
    · rename_i hbad
      have hd : d' = .el tag (stripForest bad cs) := (Option.some.inj h).symm
      subst hd
      rw [domHasTag]
      have htag : (tag = t) = False := by
        simp only [eq_iff_iff, iff_false]
        intro hc
        exact hbad (hc ▸ ht)
      simp only [htag, decide_False, Bool.false_or]
      exact stripForest_clean bad t ht cs

theorem stripForest_clean (bad : List String) (t : String) (ht : t ∈ bad) :
    (f : DomForest) → forestHasTag t (stripForest bad f) = false
  | .nil => rfl
  | .cons d ds => by
    rw [stripForest]
    cases hd : stripDom bad d with
    | none => exact stripForest_clean bad t ht ds
    | some d' =>
      rw [forestHasTag, stripDom_clean bad t ht d d' hd,
        stripForest_clean bad t ht ds]
      rfl
end

/-- C9 (counterexample): the tag-removal pass of `_extract_article_content`
does not remove `embed` (nor `object`) elements: its list has only ten tags,
and an `embed` element survives the pass. -/
theorem embed_element_survives :
    stripForest removedTags
      (DomForest.cons (Dom.el "embed" DomForest.nil) DomForest.nil)
      = DomForest.cons (Dom.el "embed" DomForest.nil) DomForest.nil ∧
    "embed" ∉ removedTags ∧ "object" ∉ removedTags ∧
    forestHasTag "embed" (stripForest removedTags
      (DomForest.cons (Dom.el "embed" DomForest.nil) DomForest.nil))
      = true := by
  refine ⟨rfl, by decide, by decide, rfl⟩

/-- C9 (amended): every element whose tag is in the source's ten-tag list
(`script, style, noscript, iframe, nav, header, footer, aside, form,
button` — without `embed` and `object`) is removed outright, with its
subtree, before content selection. -/
theorem listed_tags_removed (t : String) (ht : t ∈ removedTags)
    (f : DomForest) :
    forestHasTag t (stripForest removedTags f) = false :=
  stripForest_clean removedTags t ht f

/-- Witness for C9: `script` elements are gone from a concrete tree. -/
theorem listed_tags_removed_witness :
    forestHasTag "script" (stripForest removedTags
      (DomForest.cons (Dom.el "div"
        (DomForest.cons (Dom.el "script" DomForest.nil) DomForest.nil))
        DomForest.nil)) = false :=
  listed_tags_removed "script" (by decide)
    (DomForest.cons (Dom.el "div"
      (DomForest.cons (Dom.el "script" DomForest.nil) DomForest.nil))
      DomForest.nil)

/-! ### Whitespace shape of cleaned content -/

/-- A character the cleaning pass may leave behind: non-whitespace, or the
plain space that whitespace runs collapse to. -/
def spaceOk (c : Char) : Bool :=
  !pySpace c || c = ' '

/-- No two adjacent whitespace characters. -/
def noWsRunB : List Char → Bool
  | [] => true
  | [_] => true
  | a :: b :: rest => !(pySpace a && pySpace b) && noWsRunB (b :: rest)

/-- The adjacency relation behind `noWsRunB`. -/
def noAdjWs (a b : Char) : Prop :=
  ¬(pySpace a = true ∧ pySpace b = true)

theorem noWsRunB_iff : ∀ l : List Char, noWsRunB l = true ↔ l.Chain' noAdjWs
  | [] => by simp [noWsRunB]
  | [a] => by simp [noWsRunB]
  | a :: b :: rest => by
    rw [noWsRunB, List.chain'_cons, Bool.and_eq_true, noWsRunB_iff (b :: rest)]
    constructor
    · rintro ⟨h1, h2⟩
      refine ⟨fun hc => ?_, h2⟩
      rw [hc.1, hc.2] at h1
      exact Bool.noConfusion h1
    · rintro ⟨h1, h2⟩
      refine ⟨?_, h2⟩
      rw [noAdjWs] at h1
      cases hpa : pySpace a with
      | false => rfl
      | true =>
        cases hpb : pySpace b with
        | false => rfl
        | true => exact absurd ⟨hpa, hpb⟩ h1

theorem spaceOk_collapseWsGo (l : List Char) :
    ∀ (b : Bool), ∀ c ∈ collapseWsGo l b, spaceOk c = true := by
  induction l with
  | nil => intro b c hc; cases hc
  | cons a rest ih =>
    intro b c hc
    rw [collapseWsGo] at hc
    by_cases ha : pySpace a = true
    · rw [if_pos ha] at hc
      cases b with
      | true => exact ih true c (by simpa using hc)
      | false =>
        rcases List.mem_cons.1 (by simpa using hc) with h | h
        · subst h
          decide
        · exact ih true c h
    · rw [if_neg ha] at hc
      rcases List.mem_cons.1 hc with h | h
      · subst h
        simp [spaceOk, ha]
      · exact ih false c h

theorem head_collapseWsGo_true (l : List Char) :
    ∀ y ∈ (collapseWsGo l true).head?, pySpace y = false := by
  induction l with
  | nil => intro y hy; cases hy
  | cons a rest ih =>
    intro y hy
    rw [collapseWsGo] at hy
    by_cases ha : pySpace a = true
    · rw [if_pos ha] at hy
      exact ih y (by simpa using hy)
    · rw [if_neg ha] at hy
      have h : a = y := by simpa using hy
      subst h
      simpa using ha

theorem chain_collapseWsGo (l : List Char) :
    ∀ b : Bool, (collapseWsGo l b).Chain' noAdjWs := by
  induction l with
  | nil => intro b; exact List.chain'_nil
  | cons a rest ih =>
    intro b
    rw [collapseWsGo]
    by_cases ha : pySpace a = true
    · rw [if_pos ha]
      cases b with
      | true => exact ih true
      | false =>
        simp only [Bool.false_eq_true, if_false]
        refine List.chain'_cons'.2 ⟨?_, ih true⟩
        intro y hy
        have := head_collapseWsGo_true rest y hy
        exact fun hc => by rw [this] at hc; exact Bool.noConfusion hc.2
    · rw [if_neg ha]
      refine List.chain'_cons'.2 ⟨?_, ih false⟩
      exact fun y _ hc => ha hc.1

theorem chain_noAdjWs_reverse (l : List Char) (h : l.Chain' noAdjWs) :
    l.reverse.Chain' noAdjWs := by
  rw [List.chain'_reverse]
  exact h.imp (fun a b hab hc => hab ⟨hc.2, hc.1⟩)

theorem chain_dropWhile (p : Char → Bool) (l : List Char)
    (h : l.Chain' noAdjWs) : (l.dropWhile p).Chain' noAdjWs := by
  induction l with
  | nil => exact h
  | cons a rest ih =>
    rw [List.dropWhile_cons]
    split
    · exact ih h.tail
    · exact h

theorem chain_pyStrip (l : List Char) (h : l.Chain' noAdjWs) :
    (pyStrip l).Chain' noAdjWs :=
  chain_noAdjWs_reverse _ (chain_dropWhile _ _
    (chain_noAdjWs_reverse _ (chain_dropWhile _ _ h)))

theorem mem_of_mem_pyStrip (c : Char) (l : List Char) (hc : c ∈ pyStrip l) :
    c ∈ l := by
  rw [pyStrip] at hc
  have h1 := List.mem_reverse.1 hc
  have h2 := (List.dropWhile_sublist _).mem h1
  have h3 := List.mem_reverse.1 h2
  exact (List.dropWhile_sublist _).mem h3

theorem finalize_props (t4 : List Char) (h1 : t4.Chain' noAdjWs)
    (h2 : ∀ c ∈ t4, spaceOk c = true) :
    (if t4.length > 50000 then t4.take 50000 else t4).length ≤ 50000 ∧
    (if t4.length > 50000 then t4.take 50000 else t4).all spaceOk = true ∧
    noWsRunB (if t4.length > 50000 then t4.take 50000 else t4) = true := by
  split
  · rename_i hlong
    refine ⟨?_, ?_, ?_⟩
    · simp
    · exact List.all_eq_true.2 fun c hc => h2 c ((List.take_sublist _ _).mem hc)
    · exact (noWsRunB_iff _).2 (h1.take _)
  · rename_i hshort
    refine ⟨by omega, List.all_eq_true.2 h2, (noWsRunB_iff _).2 h1⟩

/-- C7 (amended): `_clean_content` always returns at most 50,000 characters,
every whitespace character of the result is a plain space, and no two
adjacent characters of the result are whitespace (whitespace runs are
collapsed). Boilerplate-pattern and URL removal are single left-to-right
non-overlapping substitution passes applied in a fixed order, so a phrase
spliced together by a removal can itself match a pattern and remain (see the
counterexample). -/
theorem cleaning_output_bounded (s : String) :
    (cleanContentS s).length ≤ 50000 ∧
    (cleanContentS s).data.all spaceOk = true ∧
    noWsRunB (cleanContentS s).data = true := by
  have hdata : (cleanContentS s).data = cleanContent s.data := rfl
  have hlen : (cleanContentS s).length = (cleanContent s.data).length := rfl
  rw [hdata, hlen]
  have hshape : cleanContent s.data = [] ∨
      ∃ X, cleanContent s.data =
        (if (pyStrip (collapseWs X)).length > 50000 then
          (pyStrip (collapseWs X)).take 50000
        else pyStrip (collapseWs X)) := by
    rw [cleanContent]
    split
    · exact Or.inl rfl
    · exact Or.inr ⟨rxRemove urlRx
        (boilerplate.foldl (fun acc r => rxRemove r acc) (collapseWs s.data)),
        rfl⟩
  rcases hshape with h | ⟨X, hX⟩
  · rw [h]
    exact ⟨by simp, rfl, rfl⟩
  · rw [hX]
    exact finalize_props _ (chain_pyStrip _ (chain_collapseWsGo X false))
      (fun c hc => spaceOk_collapseWsGo X false c (mem_of_mem_pyStrip c _ hc))

set_option maxRecDepth 40000 in
/-- C7 (counterexample): on input `advertiadvertisementsement` the single
removal pass deletes the one embedded `advertisement` match and thereby
splices its surroundings into a fresh `advertisement`, so the returned
string still contains a phrase matching a boilerplate pattern — the claim
that every phrase matching the boilerplate list is removed fails. -/
theorem boilerplate_phrase_survives_cleaning :
    cleanContentS "advertiadvertisementsement" = "advertisement" ∧
    cil "advertisement" ∈ boilerplate ∧
    rxHasMatch (cil "advertisement")
      (cleanContentS "advertiadvertisementsement").data = true := by
  refine ⟨by decide, by decide, by decide⟩

/-! ### The concurrency gate bound -/

theorem countP_set_add (p : TaskPhase → Bool) (l : List TaskPhase) :
    ∀ (i : Nat) (hi : i < l.length) (a : TaskPhase),
      (l.set i a).countP p + (if p (l.get ⟨i, hi⟩) then 1 else 0)
        = l.countP p + (if p a then 1 else 0) := by
  induction l with
  | nil => intro i hi a; exact absurd hi (by simp)
  | cons c rest ih =>
    intro i hi a
    cases i with
    | zero =>
      simp only [List.set_cons_zero, List.countP_cons, List.get]
      omega
    | succ n =>
      have hn : n < rest.length := Nat.lt_of_succ_lt_succ hi
      simp only [List.set_cons_succ, List.countP_cons, List.get]
      have := ih n hn a
      omega

/-- One gate step preserves the permit-count invariant. -/
theorem gate_step_preserves {cap n : Nat} {s s' : GateState}
    (hstep : GateStep s s') (h1 : inFlight s + s.avail = cap)
    (h2 : s.tasks.length = n) :
    inFlight s' + s'.avail = cap ∧ s'.tasks.length = n := by
  cases hstep with
  | start i hi hw hfree =>
    have hc := countP_set_add (fun t => t = TaskPhase.fetching) s.tasks i hi
      TaskPhase.fetching
    rw [hw] at hc
    simp at hc
    have hIF : inFlight ⟨s.avail - 1, s.tasks.set i TaskPhase.fetching⟩
        = (s.tasks.set i TaskPhase.fetching).countP
          (fun t => decide (t = TaskPhase.fetching)) := rfl
    have hIF0 : inFlight s
        = s.tasks.countP (fun t => decide (t = TaskPhase.fetching)) := rfl
    have havail : (⟨s.avail - 1, s.tasks.set i TaskPhase.fetching⟩ :
        GateState).avail = s.avail - 1 := rfl
    refine ⟨by omega, ?_⟩
    · show (s.tasks.set i TaskPhase.fetching).length = n
      simpa [List.length_set] using h2
  | finish i hi hf =>
    have hc := countP_set_add (fun t => t = TaskPhase.fetching) s.tasks i hi
      TaskPhase.done
    rw [hf] at hc
    simp at hc
    have hIF : inFlight ⟨s.avail + 1, s.tasks.set i TaskPhase.done⟩
        = (s.tasks.set i TaskPhase.done).countP
          (fun t => decide (t = TaskPhase.fetching)) := rfl
    have hIF0 : inFlight s
        = s.tasks.countP (fun t => decide (t = TaskPhase.fetching)) := rfl
    have havail : (⟨s.avail + 1, s.tasks.set i TaskPhase.done⟩ :
        GateState).avail = s.avail + 1 := rfl
    refine ⟨by omega, ?_⟩
    · show (s.tasks.set i TaskPhase.done).length = n
      simpa [List.length_set] using h2

/-- The gate invariant: in-flight tasks plus free permits always equal the
capacity, and the task list keeps its length. -/
theorem gate_invariant {cap n : Nat} {s : GateState} (h : GateReach cap n s) :
    inFlight s + s.avail = cap ∧ s.tasks.length = n := by
  induction h with
  | init =>
    have h0 : inFlight ⟨cap, List.replicate n TaskPhase.waiting⟩ = 0 := by
      rw [inFlight]
      induction n with
      | zero => rfl
      | succ m ihm => simp [List.replicate_succ, List.countP_cons]
    have h2 : (⟨cap, List.replicate n TaskPhase.waiting⟩ : GateState).avail
        = cap := rfl
    exact ⟨by omega, by simp⟩
  | step _ hstep ih => exact gate_step_preserves hstep ih.1 ih.2

/-- C6: in every state reachable in a pipeline run with gate capacity
`cap` (the constructor's `max_concurrent`, default 5) and any number of URL
tasks, at most `cap` fetches are in flight: a fetch begins only through a
`start` step, which requires a free permit. -/
theorem gate_bounds_in_flight {cap n : Nat} {s : GateState}
    (h : GateReach cap n s) : inFlight s ≤ cap := by
  have := (gate_invariant h).1
  omega

/-- Witness for C6: a concrete reachable state of a capacity-2, three-task
run with one fetch in flight. -/
theorem gate_bounds_in_flight_witness :
    inFlight ⟨1, [TaskPhase.fetching, TaskPhase.waiting, TaskPhase.waiting]⟩
      ≤ 2 :=
  @gate_bounds_in_flight 2 3
    ⟨1, [TaskPhase.fetching, TaskPhase.waiting, TaskPhase.waiting]⟩
    (GateReach.step GateReach.init
      (GateStep.start ⟨2, List.replicate 3 TaskPhase.waiting⟩ 0
        (by decide) (by decide) (by decide)))

end PdfLinkScraper
